import Mathlib

/-!
Shallow embedding of `pyroute2/ipdb/linkedset.py`.

A `LinkedSet` is a Python `set` subclass carrying
  * `raw`       : a dict from keys to an optional "raw" payload,
  * `links`     : a list of other `LinkedSet` instances receiving cascaded
                  mutations,
  * `exclusive` : keys opted out of cascaded mutation,
  * `_ct`       : the current target (a set of keys) or `None`,
  * `target`    : a `threading.Event`; we model only its boolean flag.

Because `links` form an arbitrary object graph (cycles included), the
embedding works on a global state: a list of per-instance states, with links
represented as indices into that list.  The recursive cascade of `add` /
`remove` is modelled with explicit fuel (`none` / `.fuelOut` = fuel ran out);
a theorem below shows a concrete fuel bound always suffices, which is the
termination argument for the Python recursion.

Python's `None` payload is `Option.none`; a missing dict entry is the outer
`none` of `getItem`.  Membership-guarded insertion keeps list-based members
faithful to Python set semantics; removal filters out the key.
-/

namespace LinkedSets

/-- State of a single `LinkedSet` instance (`LinkedSet.__init__`).
The `threading.RLock` is not modelled: all claims are about the sequential
semantics that the lock serialises. -/
structure SetState (K R : Type) where
  members : List K
  raw : List (K × Option R)
  links : List Nat
  exclusive : List K
  ct : Option (List K)
  targetEvent : Bool
deriving DecidableEq

/-- The global state: all `LinkedSet` instances, links are list indices. -/
abbrev GState (K R : Type) := List (SetState K R)

variable {K R : Type} [DecidableEq K]

/-- Constructor `LinkedSet(iterable)`: seeds `members` from the iterable (deduplicated,
as a Python set would), with an empty `raw` dict, no links, no exclusions,
no target and a cleared event. -/
def initLS (ms : List K) : SetState K R :=
  { members := ms.dedup, raw := [], links := [], exclusive := [],
    ct := none, targetEvent := false }

/-- Dict update `self.raw[key] = raw`. -/
def rawInsert (l : List (K × Option R)) (k : K) (v : Option R) :
    List (K × Option R) :=
  (k, v) :: l.filter (fun p => decide (p.1 ≠ k))

/-- Indexing, `LinkedSet.__getitem__`: `self.raw[key]`.  Outer `none` is Python's
`KeyError`; `some v` is a normal return of `v` (which may be Python `None`,
i.e. the inner `none`). -/
def getItem (s : SetState K R) (k : K) : Option (Option R) :=
  (s.raw.find? (fun p => decide (p.1 = k))).map (fun p => p.2)

/-- Source `LinkedSet.target_filter`: the base filter admits every member. -/
def LinkedSet.target_filter (_ : K) : Bool := true

/-- Source comparison `set(filter(tf, a)) == set(filter(tf, b))`: equality of the two filtered
collections *as sets*, i.e. mutual containment of the filtered lists. -/
def filteredSetEq (tf : K → Bool) (a b : List K) : Bool :=
  ((a.filter tf).all (fun x => decide (x ∈ b.filter tf))) &&
  ((b.filter tf).all (fun x => decide (x ∈ a.filter tf)))

/-- Source `LinkedSet.check_target`: if a target is active and the filtered members
equal the filtered target, clear the target and set the event. -/
def check_target (tf : K → Bool) (s : SetState K R) : SetState K R :=
  match s.ct with
  | none => s
  | some ct =>
    if filteredSetEq tf s.members ct then
      { s with ct := none, targetEvent := true }
    else s

/-- Source `LinkedSet.set_target`: `None` clears target and event; otherwise store
the target, clear the event, and immediately re-check. -/
def set_target (tf : K → Bool) (s : SetState K R) (value : Option (List K)) :
    SetState K R :=
  match value with
  | none => { s with ct := none, targetEvent := false }
  | some v => check_target tf { s with ct := some v, targetEvent := false }

/-- Source `LinkedSet.unlink`: `self.exclusive.add(key)`. -/
def unlink (s : SetState K R) (k : K) : SetState K R :=
  if k ∈ s.exclusive then s else { s with exclusive := k :: s.exclusive }

/-- Source `LinkedSet.relink`: `self.exclusive.remove(key)`; `none` is the
`KeyError` raised when the key was not excluded. -/
def relink (s : SetState K R) (k : K) : Option (SetState K R) :=
  if k ∈ s.exclusive then
    some { s with exclusive := s.exclusive.filter (fun x => decide (x ≠ k)) }
  else none

/-- Source `LinkedSet.connect`: append the other instance to `links`. -/
def connect (s : SetState K R) (j : Nat) : SetState K R :=
  { s with links := s.links ++ [j] }

/-- The `for link in self.links: link.add(key, raw, cascade=True)` loop:
fold a monadic step over the link indices. -/
def addListWith (go : GState K R → Nat → Option (GState K R)) :
    List Nat → GState K R → Option (GState K R)
  | [], σ => some σ
  | l :: ls, σ =>
    match go σ l with
    | none => none
    | some σ' => addListWith go ls σ'

/-- Source `LinkedSet.add(key, raw=None, cascade=False)` on instance `i` of the
global state, with explicit fuel for the cascade recursion.
Mirrors the source line by line:
  * cascaded call on an excluded key: return (no `check_target`);
  * key not yet a member: store the raw payload, insert the key, cascade to
    every link with `cascade=True`, then `check_target` on the *current*
    state of `self`;
  * key already a member: only `check_target`.
An out-of-range index is unreachable from well-formed link graphs and is a
no-op. -/
def addFuel (tf : K → Bool) (key : K) (rawv : Option R) :
    Nat → Bool → GState K R → Nat → Option (GState K R)
  | 0, _, _, _ => none
  | fuel + 1, cascade, σ, i =>
    match σ[i]? with
    | none => some σ
    | some s =>
      if cascade ∧ key ∈ s.exclusive then some σ
      else if key ∈ s.members then some (σ.set i (check_target tf s))
      else
        match addListWith (fun σ' l => addFuel tf key rawv fuel true σ' l)
            s.links
            (σ.set i { s with members := key :: s.members,
                              raw := rawInsert s.raw key rawv }) with
        | none => none
        | some σ2 =>
          match σ2[i]? with
          | none => some σ2
          | some s2 => some (σ2.set i (check_target tf s2))

/-- Result of a `remove` call: fuel exhaustion, a Python `KeyError` carrying
the global state at the moment it is raised, or normal completion. -/
inductive RRes (K R : Type) where
  | fuelOut
  | keyError (σ : GState K R)
  | ok (σ : GState K R)
deriving DecidableEq

/-- The `for link in self.links: if key in link: link.remove(key,
cascade=True)` loop: the membership pre-check reads the link's *current*
state. -/
def removeListWith (key : K) (go : GState K R → Nat → RRes K R) :
    List Nat → GState K R → RRes K R
  | [], σ => .ok σ
  | l :: ls, σ =>
    match σ[l]? with
    | none => removeListWith key go ls σ
    | some t =>
      if key ∈ t.members then
        match go σ l with
        | .fuelOut => .fuelOut
        | .keyError σe => .keyError σe
        | .ok σ' => removeListWith key go ls σ'
      else removeListWith key go ls σ

/-- Source `LinkedSet.remove(key, raw=None, cascade=False)` on instance `i`.
(The `raw` parameter of the source is unused by the body and omitted.)
Mirrors the source:
  * cascaded call on an excluded key: return;
  * `set.remove(self, key)` raises `KeyError` if the key is absent, before
    any mutation — the error carries the unchanged state;
  * otherwise delete the key, cascade to links that contain it, then
    `check_target` on the current state of `self`. -/
def removeFuel (tf : K → Bool) (key : K) :
    Nat → Bool → GState K R → Nat → RRes K R
  | 0, _, _, _ => .fuelOut
  | fuel + 1, cascade, σ, i =>
    match σ[i]? with
    | none => .ok σ
    | some s =>
      if cascade ∧ key ∈ s.exclusive then .ok σ
      else if key ∈ s.members then
        match removeListWith key (fun σ' l => removeFuel tf key fuel true σ' l)
            s.links
            (σ.set i { s with
                members := s.members.filter (fun x => decide (x ≠ key)) }) with
        | .fuelOut => .fuelOut
        | .keyError σe => .keyError σe
        | .ok σ2 =>
          match σ2[i]? with
          | none => .ok σ2
          | some s2 => .ok (σ2.set i (check_target tf s2))
      else .keyError σ

/-- Number of instances that do not contain `key` (termination measure for
the `add` cascade). -/
def lackCount (σ : GState K R) (key : K) : Nat :=
  σ.countP (fun s => decide (key ∉ s.members))

/-- Number of instances that contain `key` (termination measure for the
`remove` cascade). -/
def containCount (σ : GState K R) (key : K) : Nat :=
  σ.countP (fun s => decide (key ∈ s.members))

/-! Section: the `IPaddrSet` specialization -/

/-- Key type of an `IPaddrSet`.  `_get_addr_nla` returns a tuple
`(address, prefix length)` for the two supported families and Python `None`
(the outer `none`) for every other family; the address inside the tuple is
itself `get_attr(...)`, which may be `None` (the inner `none`). -/
abbrev IPKey := Option (Option String × Nat)

/-- The raw payload record built by `IPaddrSet.add` from a message. -/
structure IPRaw where
  local_addr : Option String
  broadcast : Option String
  address : Option String
  flags : Option Nat
  plen : Option Nat
deriving DecidableEq

/-- A decoded `RTM_NEWADDR`-style message as consumed by `IPaddrSet`:
a family discriminator, the fixed `prefixlen` field, and the optional
named attributes (`get_attr` returns `None` when absent). -/
structure AddrMsg where
  family : Nat
  plen : Nat
  ifa_local : Option String
  ifa_address : Option String
  ifa_broadcast : Option String
  ifa_flags : Option Nat
deriving DecidableEq

/-- Value of `socket.AF_INET` on Linux. -/
def AF_INET : Nat := 2
/-- Value of `socket.AF_INET6` on Linux. -/
def AF_INET6 : Nat := 10

/-- Source `IPaddrSet.target_filter`:
`not ((x[0][:4] == 'fe80') and (x[1] == 64))`.
On a key that is not a pair of a string and a number (Python `None`, or a
tuple whose first component is `None`), the Python expression would raise
`TypeError`; such keys never meet an active target in the verified
scenarios, and the filter is total here, admitting them. -/
def IPaddrSet.target_filter (x : IPKey) : Bool :=
  match x with
  | some (some a, p) => !(decide (a.take 4 = "fe80") && decide (p = 64))
  | _ => true

/-- Source `IPaddrSet._get_addr_nla`: key extraction by family; families other
than `AF_INET` / `AF_INET6` fall off the `elif` and yield Python `None`. -/
def get_addr_nla (addr : AddrMsg) : IPKey :=
  if addr.family = AF_INET then some (addr.ifa_local, addr.plen)
  else if addr.family = AF_INET6 then some (addr.ifa_address, addr.plen)
  else none

/-- The raw dict literal built inside `IPaddrSet.add`. -/
def msg_raw (addr : AddrMsg) : IPRaw :=
  { local_addr := addr.ifa_local, broadcast := addr.ifa_broadcast,
    address := addr.ifa_address, flags := addr.ifa_flags,
    plen := some addr.plen }

/-- Source `IPaddrSet.add` on a decoded message (the `isinstance(addr, nlmsg)`
branch): extract the key, build the payload, delegate to the base `add`
with `cascade=False`. -/
def IPaddrSet.add_msg (fuel : Nat) (addr : AddrMsg) (σ : GState IPKey IPRaw)
    (i : Nat) : Option (GState IPKey IPRaw) :=
  addFuel IPaddrSet.target_filter (get_addr_nla addr) (some (msg_raw addr))
    fuel false σ i

/-- Source `IPaddrSet.remove` on a decoded message: extract the key and delegate to
the base `remove` (no extra positional arguments, so `cascade=False`). -/
def IPaddrSet.remove_msg (fuel : Nat) (addr : AddrMsg)
    (σ : GState IPKey IPRaw) (i : Nat) : RRes IPKey IPRaw :=
  removeFuel IPaddrSet.target_filter (get_addr_nla addr) fuel false σ i

/-! Section: basic facts about `check_target` -/

theorem check_target_members (tf : K → Bool) (s : SetState K R) :
    (check_target tf s).members = s.members := by
  unfold check_target
  cases hct : s.ct with
  | none => rfl
  | some ct => dsimp only; split <;> rfl

theorem check_target_raw (tf : K → Bool) (s : SetState K R) :
    (check_target tf s).raw = s.raw := by
  unfold check_target
  cases hct : s.ct with
  | none => rfl
  | some ct => dsimp only; split <;> rfl

theorem check_target_links (tf : K → Bool) (s : SetState K R) :
    (check_target tf s).links = s.links := by
  unfold check_target
  cases hct : s.ct with
  | none => rfl
  | some ct => dsimp only; split <;> rfl

theorem check_target_exclusive (tf : K → Bool) (s : SetState K R) :
    (check_target tf s).exclusive = s.exclusive := by
  unfold check_target
  cases hct : s.ct with
  | none => rfl
  | some ct => dsimp only; split <;> rfl

theorem check_target_of_ct_none (tf : K → Bool) (s : SetState K R)
    (h : s.ct = none) : check_target tf s = s := by
  unfold check_target; rw [h]

/-! Section: counting helpers for the cascade termination measures -/

theorem countP_set_of {α : Type} (p : α → Bool) :
    ∀ (σ : List α) (i : Nat) (a b : α), σ[i]? = some a →
      (σ.set i b).countP p + (if p a then 1 else 0) =
        σ.countP p + (if p b then 1 else 0) := by
  intro σ
  induction σ with
  | nil => intro i a b h; simp at h
  | cons x xs ih =>
    intro i a b h
    cases i with
    | zero =>
      simp only [List.getElem?_cons_zero, Option.some.injEq] at h
      subst h
      simp only [List.set_cons_zero, List.countP_cons]
      omega
    | succ n =>
      simp only [List.getElem?_cons_succ] at h
      simp only [List.set_cons_succ, List.countP_cons]
      have := ih n a b h
      omega

theorem countP_le_pointwise {α : Type} (p : α → Bool) :
    ∀ (σ' σ : List α), σ'.length = σ.length →
      (∀ (j : Nat) (a b : α), σ[j]? = some a → σ'[j]? = some b →
        p b = true → p a = true) →
      σ'.countP p ≤ σ.countP p := by
  intro σ'
  induction σ' with
  | nil => intro σ _ _; simp
  | cons b bs ih =>
    intro σ hlen hpt
    cases σ with
    | nil => simp at hlen
    | cons a as =>
      have h0 := hpt 0 a b (by simp) (by simp)
      have htail := ih as (by simpa using hlen)
        (fun j x y hx hy => hpt (j + 1) x y (by simpa using hx)
          (by simpa using hy))
      simp only [List.countP_cons]
      by_cases hb : p b = true
      · have := h0 hb
        simp only [this, hb, if_pos]
        omega
      · simp only [hb, if_neg, Bool.not_eq_true]
        split <;> omega

/-! Section: characterization of one `add` call

`AddPer key rawv s s'` relates the state of a single instance before and
after an `add key rawv` cascade touches (or skips) it: links and exclusions
are never changed, an instance already containing the key keeps its members
and raw dict, an instance lacking the key is either left alone or gets
exactly one insertion, and an instance with no active target keeps no
target and an unchanged event flag. -/

def AddPer (key : K) (rawv : Option R) (s s' : SetState K R) : Prop :=
  s'.links = s.links ∧ s'.exclusive = s.exclusive ∧
  (key ∈ s.members → s'.members = s.members ∧ s'.raw = s.raw) ∧
  (key ∉ s.members → (s'.members = s.members ∧ s'.raw = s.raw) ∨
      (s'.members = key :: s.members ∧ s'.raw = rawInsert s.raw key rawv)) ∧
  (s.ct = none → s'.ct = none ∧ s'.targetEvent = s.targetEvent)

theorem addPer_refl (key : K) (rawv : Option R) (s : SetState K R) :
    AddPer key rawv s s :=
  ⟨rfl, rfl, fun _ => ⟨rfl, rfl⟩, fun _ => Or.inl ⟨rfl, rfl⟩,
   fun h => ⟨h, rfl⟩⟩

theorem addPer_trans {key : K} {rawv : Option R} {s s' s'' : SetState K R}
    (h1 : AddPer key rawv s s') (h2 : AddPer key rawv s' s'') :
    AddPer key rawv s s'' := by
  obtain ⟨l1, e1, m1, n1, c1⟩ := h1
  obtain ⟨l2, e2, m2, n2, c2⟩ := h2
  refine ⟨l2.trans l1, e2.trans e1, ?_, ?_, ?_⟩
  · intro hm
    obtain ⟨hm1, hr1⟩ := m1 hm
    obtain ⟨hm2, hr2⟩ := m2 (by rw [hm1]; exact hm)
    exact ⟨hm2.trans hm1, hr2.trans hr1⟩
  · intro hm
    rcases n1 hm with ⟨hm1, hr1⟩ | ⟨hm1, hr1⟩
    · rcases n2 (by rw [hm1]; exact hm) with ⟨hm2, hr2⟩ | ⟨hm2, hr2⟩
      · exact Or.inl ⟨hm2.trans hm1, hr2.trans hr1⟩
      · exact Or.inr ⟨by rw [hm2, hm1], by rw [hr2, hr1]⟩
    · have hm' : key ∈ s'.members := by
        rw [hm1]; exact List.mem_cons_self _ _
      obtain ⟨hm2, hr2⟩ := m2 hm'
      exact Or.inr ⟨hm2.trans hm1, hr2.trans hr1⟩
  · intro hc
    obtain ⟨hc1, he1⟩ := c1 hc
    obtain ⟨hc2, he2⟩ := c2 hc1
    exact ⟨hc2, he2.trans he1⟩

/-- Global-state version of `AddPer`: same number of instances, related
pointwise. -/
def AddChars (key : K) (rawv : Option R) (σ σ' : GState K R) : Prop :=
  σ'.length = σ.length ∧
  ∀ (j : Nat) (s s' : SetState K R), σ[j]? = some s → σ'[j]? = some s' →
    AddPer key rawv s s'

theorem addChars_refl (key : K) (rawv : Option R) (σ : GState K R) :
    AddChars key rawv σ σ := by
  refine ⟨rfl, fun j s s' hj hj' => ?_⟩
  rw [hj] at hj'
  cases hj'
  exact addPer_refl key rawv s

theorem addChars_trans {key : K} {rawv : Option R} {σ σ' σ'' : GState K R}
    (h1 : AddChars key rawv σ σ') (h2 : AddChars key rawv σ' σ'') :
    AddChars key rawv σ σ'' := by
  obtain ⟨len1, pt1⟩ := h1
  obtain ⟨len2, pt2⟩ := h2
  refine ⟨len2.trans len1, fun j s s'' hj hj'' => ?_⟩
  have hjlt : j < σ.length := (List.getElem?_eq_some_iff.mp hj).1
  have hjlt' : j < σ'.length := by omega
  exact addPer_trans (pt1 j s _ hj (List.getElem?_eq_getElem hjlt'))
    (pt2 j _ s'' (List.getElem?_eq_getElem hjlt') hj'')

theorem addChars_set_check {σ : GState K R} {i : Nat} {s : SetState K R}
    (tf : K → Bool) (key : K) (rawv : Option R) (hσ : σ[i]? = some s) :
    AddChars key rawv σ (σ.set i (check_target tf s)) := by
  refine ⟨List.length_set .., fun j t t' hj hj' => ?_⟩
  by_cases hji : j = i
  · subst hji
    have ht : t = s := by rw [hσ] at hj; exact (Option.some.inj hj).symm
    subst ht
    have hlt : j < σ.length := (List.getElem?_eq_some_iff.mp hσ).1
    rw [List.getElem?_set_self hlt] at hj'
    cases hj'
    refine ⟨check_target_links tf t, check_target_exclusive tf t,
      fun _ => ⟨check_target_members tf t, check_target_raw tf t⟩,
      fun _ => Or.inl ⟨check_target_members tf t, check_target_raw tf t⟩,
      fun hc => ?_⟩
    rw [check_target_of_ct_none tf t hc]
    exact ⟨hc, rfl⟩
  · rw [List.getElem?_set_ne (fun h => hji h.symm)] at hj'
    rw [hj] at hj'
    cases hj'
    exact addPer_refl key rawv t

theorem addChars_set_insert {σ : GState K R} {i : Nat} {s : SetState K R}
    (key : K) (rawv : Option R) (hσ : σ[i]? = some s)
    (hmem : key ∉ s.members) :
    AddChars key rawv σ
      (σ.set i { s with members := key :: s.members,
                        raw := rawInsert s.raw key rawv }) := by
  refine ⟨List.length_set .., fun j t t' hj hj' => ?_⟩
  by_cases hji : j = i
  · subst hji
    have ht : t = s := by rw [hσ] at hj; exact (Option.some.inj hj).symm
    subst ht
    have hlt : j < σ.length := (List.getElem?_eq_some_iff.mp hσ).1
    rw [List.getElem?_set_self hlt] at hj'
    cases hj'
    exact ⟨rfl, rfl, fun h => absurd h hmem,
      fun _ => Or.inr ⟨rfl, rfl⟩, fun hc => ⟨hc, rfl⟩⟩
  · rw [List.getElem?_set_ne (fun h => hji h.symm)] at hj'
    rw [hj] at hj'
    cases hj'
    exact addPer_refl key rawv t

theorem addListWith_chars (key : K) (rawv : Option R)
    (go : GState K R → Nat → Option (GState K R))
    (hgo : ∀ σ l σ', go σ l = some σ' → AddChars key rawv σ σ') :
    ∀ (links : List Nat) (σ σ' : GState K R),
      addListWith go links σ = some σ' → AddChars key rawv σ σ' := by
  intro links
  induction links with
  | nil =>
    intro σ σ' h
    simp only [addListWith, Option.some.injEq] at h
    subst h
    exact addChars_refl key rawv σ
  | cons l ls ih =>
    intro σ σ' h
    simp only [addListWith] at h
    cases hg : go σ l with
    | none => rw [hg] at h; exact absurd h (by simp)
    | some σ1 =>
      rw [hg] at h
      exact addChars_trans (hgo _ _ _ hg) (ih _ _ h)

theorem addFuel_chars (tf : K → Bool) (key : K) (rawv : Option R) :
    ∀ (fuel : Nat) (cascade : Bool) (σ : GState K R) (i : Nat)
      (σ' : GState K R),
      addFuel tf key rawv fuel cascade σ i = some σ' →
      AddChars key rawv σ σ' := by
  intro fuel
  induction fuel with
  | zero =>
    intro c σ i σ' h
    exact absurd h (by simp [addFuel])
  | succ f ih =>
    intro c σ i σ' h
    cases hσ : σ[i]? with
    | none =>
      simp only [addFuel, hσ, Option.some.injEq] at h
      subst h
      exact addChars_refl key rawv σ
    | some s =>
      simp only [addFuel, hσ] at h
      by_cases hexc : c = true ∧ key ∈ s.exclusive
      · rw [if_pos hexc] at h
        cases h
        exact addChars_refl key rawv σ
      · rw [if_neg hexc] at h
        by_cases hmem : key ∈ s.members
        · rw [if_pos hmem] at h
          cases h
          exact addChars_set_check tf key rawv hσ
        · rw [if_neg hmem] at h
          have hc1 := addChars_set_insert key rawv hσ hmem
          cases hfold : addListWith
              (fun σ' l => addFuel tf key rawv f true σ' l) s.links
              (σ.set i { s with members := key :: s.members,
                                raw := rawInsert s.raw key rawv }) with
          | none =>
            rw [hfold] at h
            exact absurd h (by simp)
          | some σ2 =>
            rw [hfold] at h
            dsimp only at h
            have hc2 := addListWith_chars key rawv _
              (fun σa l σb hb => ih true σa l σb hb) _ _ _ hfold
            cases hσ2 : σ2[i]? with
            | none =>
              rw [hσ2] at h
              cases h
              exact addChars_trans hc1 hc2
            | some s2 =>
              rw [hσ2] at h
              dsimp only at h
              cases h
              exact addChars_trans hc1
                (addChars_trans hc2 (addChars_set_check tf key rawv hσ2))

theorem addChars_length {key : K} {rawv : Option R} {σ σ' : GState K R}
    (h : AddChars key rawv σ σ') : σ'.length = σ.length := h.1

theorem addChars_lack_le {key : K} {rawv : Option R} {σ σ' : GState K R}
    (h : AddChars key rawv σ σ') : lackCount σ' key ≤ lackCount σ key := by
  obtain ⟨hlen, hpt⟩ := h
  refine countP_le_pointwise _ _ _ hlen ?_
  intro j a b ha hb hpb
  have hb' : key ∉ b.members := of_decide_eq_true hpb
  refine decide_eq_true ?_
  intro hka
  exact hb' (((hpt j a b ha hb).2.2.1 hka).1 ▸ hka)

theorem addChars_mem_mono {key : K} {rawv : Option R} {σ σ' : GState K R}
    (h : AddChars key rawv σ σ') (j : Nat) (s s' : SetState K R)
    (hj : σ[j]? = some s) (hj' : σ'[j]? = some s')
    (hk : key ∈ s.members) : key ∈ s'.members := by
  rw [((h.2 j s s' hj hj').2.2.1 hk).1]
  exact hk

theorem addListWith_isSome (tf : K → Bool) (key : K) (rawv : Option R)
    (f : Nat)
    (ih : ∀ (c : Bool) (σ : GState K R) (i : Nat), lackCount σ key < f →
      ∃ σ', addFuel tf key rawv f c σ i = some σ') :
    ∀ (links : List Nat) (σ : GState K R), lackCount σ key < f →
      ∃ σ', addListWith (fun σ' l => addFuel tf key rawv f true σ' l)
          links σ = some σ' ∧ lackCount σ' key ≤ lackCount σ key := by
  intro links
  induction links with
  | nil => intro σ _; exact ⟨σ, rfl, Nat.le_refl _⟩
  | cons l ls ihl =>
    intro σ h
    obtain ⟨σ1, h1⟩ := ih true σ l h
    have hle1 : lackCount σ1 key ≤ lackCount σ key :=
      addChars_lack_le (addFuel_chars tf key rawv f true σ l σ1 h1)
    obtain ⟨σ2, h2, hle2⟩ := ihl σ1 (Nat.lt_of_le_of_lt hle1 h)
    refine ⟨σ2, ?_, Nat.le_trans hle2 hle1⟩
    simp only [addListWith, h1, h2]

theorem addFuel_isSome (tf : K → Bool) (key : K) (rawv : Option R) :
    ∀ (fuel : Nat) (cascade : Bool) (σ : GState K R) (i : Nat),
      lackCount σ key < fuel →
      ∃ σ', addFuel tf key rawv fuel cascade σ i = some σ' := by
  intro fuel
  induction fuel with
  | zero => intro c σ i h; exact absurd h (Nat.not_lt_zero _)
  | succ f ih =>
    intro c σ i h
    cases hσ : σ[i]? with
    | none => exact ⟨σ, by simp [addFuel, hσ]⟩
    | some s =>
      by_cases hexc : c = true ∧ key ∈ s.exclusive
      · refine ⟨σ, ?_⟩
        simp only [addFuel, hσ]
        rw [if_pos hexc]
      · by_cases hmem : key ∈ s.members
        · refine ⟨σ.set i (check_target tf s), ?_⟩
          simp only [addFuel, hσ]
          rw [if_neg hexc, if_pos hmem]
        · set s1 : SetState K R :=
            { s with members := key :: s.members,
                     raw := rawInsert s.raw key rawv } with hs1
          have hmem1 : key ∈ s1.members := by
            rw [hs1]; exact List.mem_cons_self _ _
          have hcp := countP_set_of (fun t : SetState K R =>
            decide (key ∉ t.members)) σ i s s1 hσ
          rw [if_pos (decide_eq_true hmem), if_neg (by
            simp only [decide_eq_true_eq, not_not]
            exact List.mem_cons_self _ _)] at hcp
          have hdec : lackCount (σ.set i s1) key + 1 = lackCount σ key := by
            unfold lackCount
            omega
          obtain ⟨σ2, hfold, _⟩ := addListWith_isSome tf key rawv f ih
            s.links (σ.set i s1) (by omega)
          simp only [addFuel, hσ]
          rw [if_neg hexc, if_neg hmem, ← hs1, hfold]
          dsimp only
          cases hσ2 : σ2[i]? with
          | none => exact ⟨σ2, rfl⟩
          | some s2 => exact ⟨σ2.set i (check_target tf s2), rfl⟩

/-- A direct (non-cascaded) `add` of a fresh key really inserts it: the
members and raw dict of the target instance afterwards are exactly the
insertion results. -/
theorem addFuel_adds (tf : K → Bool) (key : K) (rawv : Option R)
    (fuel : Nat) (σ : GState K R) (i : Nat) (s : SetState K R)
    (σ' : GState K R)
    (hσ : σ[i]? = some s) (hmem : key ∉ s.members)
    (h : addFuel tf key rawv (fuel + 1) false σ i = some σ') :
    ∃ s', σ'[i]? = some s' ∧ s'.members = key :: s.members ∧
      s'.raw = rawInsert s.raw key rawv ∧ s'.links = s.links ∧
      s'.exclusive = s.exclusive := by
  have hlt : i < σ.length := (List.getElem?_eq_some_iff.mp hσ).1
  set s1 : SetState K R :=
    { s with members := key :: s.members,
             raw := rawInsert s.raw key rawv } with hs1
  have hmem1 : key ∈ s1.members := by
    rw [hs1]; exact List.mem_cons_self _ _
  simp only [addFuel, hσ] at h
  rw [if_neg (by simp), if_neg hmem, ← hs1] at h
  cases hfold : addListWith
      (fun σ' l => addFuel tf key rawv fuel true σ' l) s.links
      (σ.set i s1) with
  | none => rw [hfold] at h; exact absurd h (by simp)
  | some σ2 =>
    rw [hfold] at h
    dsimp only at h
    have hc2 := addListWith_chars key rawv _
      (fun σa l σb hb => addFuel_chars tf key rawv fuel true σa l σb hb)
      _ _ _ hfold
    have hset : (σ.set i s1)[i]? = some s1 := List.getElem?_set_self hlt
    have hlt2 : i < σ2.length := by
      have := addChars_length hc2
      simp only [List.length_set] at this
      omega
    have hσ2 : σ2[i]? = some σ2[i] := List.getElem?_eq_getElem hlt2
    have hper := hc2.2 i s1 σ2[i] hset hσ2
    obtain ⟨hm2, hr2⟩ := hper.2.2.1 hmem1
    rw [hσ2] at h
    dsimp only at h
    cases h
    refine ⟨check_target tf σ2[i], List.getElem?_set_self hlt2, ?_, ?_, ?_, ?_⟩
    · rw [check_target_members, hm2, hs1]
    · rw [check_target_raw, hr2, hs1]
    · rw [check_target_links, hper.1, hs1]
    · rw [check_target_exclusive, hper.2.1, hs1]

/-! Section: characterization of one `remove` call -/

theorem not_mem_filter_ne (l : List K) (key : K) :
    key ∉ l.filter (fun x => decide (x ≠ key)) := by
  intro h
  have := (List.mem_filter.mp h).2
  simp at this

/-- Relation `RemovePer key s s'`: relates one instance's state before and after a
`remove key` cascade: links, exclusions and the raw dict are never changed,
members are unchanged or lose exactly the key, an instance without the key
keeps its members, and an instance with no active target keeps no target
and an unchanged event flag. -/
def RemovePer (key : K) (s s' : SetState K R) : Prop :=
  s'.links = s.links ∧ s'.exclusive = s.exclusive ∧ s'.raw = s.raw ∧
  (s'.members = s.members ∨
    s'.members = s.members.filter (fun x => decide (x ≠ key))) ∧
  (key ∉ s.members → s'.members = s.members) ∧
  (s.ct = none → s'.ct = none ∧ s'.targetEvent = s.targetEvent)

theorem removePer_refl (key : K) (s : SetState K R) : RemovePer key s s :=
  ⟨rfl, rfl, rfl, Or.inl rfl, fun _ => rfl, fun h => ⟨h, rfl⟩⟩

theorem removePer_trans {key : K} {s s' s'' : SetState K R}
    (h1 : RemovePer key s s') (h2 : RemovePer key s' s'') :
    RemovePer key s s'' := by
  obtain ⟨l1, e1, r1, d1, n1, c1⟩ := h1
  obtain ⟨l2, e2, r2, d2, n2, c2⟩ := h2
  refine ⟨l2.trans l1, e2.trans e1, r2.trans r1, ?_, ?_, ?_⟩
  · rcases d1 with hm1 | hm1
    · rcases d2 with hm2 | hm2
      · exact Or.inl (hm2.trans hm1)
      · exact Or.inr (by rw [hm2, hm1])
    · have hnot : key ∉ s'.members := by
        rw [hm1]; exact not_mem_filter_ne _ _
      exact Or.inr ((n2 hnot).trans hm1)
  · intro hn
    have hm1 := n1 hn
    have hn' : key ∉ s'.members := by rw [hm1]; exact hn
    exact (n2 hn').trans hm1
  · intro hc
    obtain ⟨hc1, he1⟩ := c1 hc
    obtain ⟨hc2, he2⟩ := c2 hc1
    exact ⟨hc2, he2.trans he1⟩

/-- Global-state version of `RemovePer`. -/
def RemoveChars (key : K) (σ σ' : GState K R) : Prop :=
  σ'.length = σ.length ∧
  ∀ (j : Nat) (s s' : SetState K R), σ[j]? = some s → σ'[j]? = some s' →
    RemovePer key s s'

theorem removeChars_refl (key : K) (σ : GState K R) :
    RemoveChars key σ σ := by
  refine ⟨rfl, fun j s s' hj hj' => ?_⟩
  rw [hj] at hj'
  cases hj'
  exact removePer_refl key s

theorem removeChars_trans {key : K} {σ σ' σ'' : GState K R}
    (h1 : RemoveChars key σ σ') (h2 : RemoveChars key σ' σ'') :
    RemoveChars key σ σ'' := by
  obtain ⟨len1, pt1⟩ := h1
  obtain ⟨len2, pt2⟩ := h2
  refine ⟨len2.trans len1, fun j s s'' hj hj'' => ?_⟩
  have hjlt : j < σ.length := (List.getElem?_eq_some_iff.mp hj).1
  have hjlt' : j < σ'.length := by omega
  exact removePer_trans (pt1 j s _ hj (List.getElem?_eq_getElem hjlt'))
    (pt2 j _ s'' (List.getElem?_eq_getElem hjlt') hj'')

theorem removeChars_set_check {σ : GState K R} {i : Nat} {s : SetState K R}
    (tf : K → Bool) (key : K) (hσ : σ[i]? = some s) :
    RemoveChars key σ (σ.set i (check_target tf s)) := by
  refine ⟨List.length_set .., fun j t t' hj hj' => ?_⟩
  by_cases hji : j = i
  · subst hji
    have ht : t = s := by rw [hσ] at hj; exact (Option.some.inj hj).symm
    subst ht
    have hlt : j < σ.length := (List.getElem?_eq_some_iff.mp hσ).1
    rw [List.getElem?_set_self hlt] at hj'
    cases hj'
    refine ⟨check_target_links tf t, check_target_exclusive tf t,
      check_target_raw tf t, Or.inl (check_target_members tf t),
      fun _ => check_target_members tf t, fun hc => ?_⟩
    rw [check_target_of_ct_none tf t hc]
    exact ⟨hc, rfl⟩
  · rw [List.getElem?_set_ne (fun h => hji h.symm)] at hj'
    rw [hj] at hj'
    cases hj'
    exact removePer_refl key t

theorem removeChars_set_erase {σ : GState K R} {i : Nat} {s : SetState K R}
    (key : K) (hσ : σ[i]? = some s) (hmem : key ∈ s.members) :
    RemoveChars key σ
      (σ.set i { s with
        members := s.members.filter (fun x => decide (x ≠ key)) }) := by
  refine ⟨List.length_set .., fun j t t' hj hj' => ?_⟩
  by_cases hji : j = i
  · subst hji
    have ht : t = s := by rw [hσ] at hj; exact (Option.some.inj hj).symm
    subst ht
    have hlt : j < σ.length := (List.getElem?_eq_some_iff.mp hσ).1
    rw [List.getElem?_set_self hlt] at hj'
    cases hj'
    exact ⟨rfl, rfl, rfl, Or.inr rfl, fun hn => absurd hmem hn,
      fun hc => ⟨hc, rfl⟩⟩
  · rw [List.getElem?_set_ne (fun h => hji h.symm)] at hj'
    rw [hj] at hj'
    cases hj'
    exact removePer_refl key t

theorem removeListWith_chars (key : K)
    (go : GState K R → Nat → RRes K R)
    (hgo : ∀ σ l σ', go σ l = .ok σ' → RemoveChars key σ σ') :
    ∀ (links : List Nat) (σ σ' : GState K R),
      removeListWith key go links σ = .ok σ' → RemoveChars key σ σ' := by
  intro links
  induction links with
  | nil =>
    intro σ σ' h
    simp only [removeListWith] at h
    cases h
    exact removeChars_refl key σ
  | cons l ls ih =>
    intro σ σ' h
    simp only [removeListWith] at h
    cases hl : σ[l]? with
    | none =>
      rw [hl] at h
      exact ih _ _ h
    | some t =>
      rw [hl] at h
      dsimp only at h
      by_cases hm : key ∈ t.members
      · rw [if_pos hm] at h
        cases hg : go σ l with
        | fuelOut => rw [hg] at h; exact nomatch h
        | keyError σe => rw [hg] at h; exact nomatch h
        | ok σ1 =>
          rw [hg] at h
          exact removeChars_trans (hgo _ _ _ hg) (ih _ _ h)
      · rw [if_neg hm] at h
        exact ih _ _ h

theorem removeFuel_chars (tf : K → Bool) (key : K) :
    ∀ (fuel : Nat) (cascade : Bool) (σ : GState K R) (i : Nat)
      (σ' : GState K R),
      removeFuel tf key fuel cascade σ i = .ok σ' →
      RemoveChars key σ σ' := by
  intro fuel
  induction fuel with
  | zero =>
    intro c σ i σ' h
    exact absurd h (by simp [removeFuel])
  | succ f ih =>
    intro c σ i σ' h
    cases hσ : σ[i]? with
    | none =>
      simp only [removeFuel, hσ] at h
      cases h
      exact removeChars_refl key σ
    | some s =>
      simp only [removeFuel, hσ] at h
      by_cases hexc : c = true ∧ key ∈ s.exclusive
      · rw [if_pos hexc] at h
        cases h
        exact removeChars_refl key σ
      · rw [if_neg hexc] at h
        by_cases hmem : key ∈ s.members
        · rw [if_pos hmem] at h
          have hc1 := removeChars_set_erase key hσ hmem
          cases hfold : removeListWith key
              (fun σ' l => removeFuel tf key f true σ' l) s.links
              (σ.set i { s with
                members := s.members.filter (fun x => decide (x ≠ key)) })
              with
          | fuelOut => rw [hfold] at h; exact nomatch h
          | keyError σe => rw [hfold] at h; exact nomatch h
          | ok σ2 =>
            rw [hfold] at h
            dsimp only at h
            have hc2 := removeListWith_chars key _
              (fun σa l σb hb => ih true σa l σb hb) _ _ _ hfold
            cases hσ2 : σ2[i]? with
            | none =>
              rw [hσ2] at h
              cases h
              exact removeChars_trans hc1 hc2
            | some s2 =>
              rw [hσ2] at h
              dsimp only at h
              cases h
              exact removeChars_trans hc1
                (removeChars_trans hc2 (removeChars_set_check tf key hσ2))
        · rw [if_neg hmem] at h
          exact nomatch h

theorem removeChars_contain_le {key : K} {σ σ' : GState K R}
    (h : RemoveChars key σ σ') : containCount σ' key ≤ containCount σ key := by
  obtain ⟨hlen, hpt⟩ := h
  refine countP_le_pointwise _ _ _ hlen ?_
  intro j a b ha hb hpb
  have hb' : key ∈ b.members := of_decide_eq_true hpb
  refine decide_eq_true ?_
  rcases (hpt j a b ha hb).2.2.2.1 with hm | hm
  · rw [hm] at hb'
    exact hb'
  · rw [hm] at hb'
    exact absurd hb' (not_mem_filter_ne _ _)

theorem removeListWith_no_fuelOut (tf : K → Bool) (key : K) (f : Nat)
    (ih : ∀ (c : Bool) (σ : GState K R) (i : Nat),
      containCount σ key < f → removeFuel tf key f c σ i ≠ .fuelOut) :
    ∀ (links : List Nat) (σ : GState K R), containCount σ key < f →
      removeListWith key (fun σ' l => removeFuel tf key f true σ' l)
        links σ ≠ .fuelOut := by
  intro links
  induction links with
  | nil => intro σ _ h; exact nomatch h
  | cons l ls ihl =>
    intro σ hlt
    simp only [removeListWith]
    cases hl : σ[l]? with
    | none => exact ihl σ hlt
    | some t =>
      dsimp only
      by_cases hm : key ∈ t.members
      · rw [if_pos hm]
        cases hg : removeFuel tf key f true σ l with
        | fuelOut => exact absurd hg (ih true σ l hlt)
        | keyError σe => intro hcon; exact nomatch hcon
        | ok σ1 =>
          have hle := removeChars_contain_le
            (removeFuel_chars tf key f true σ l σ1 hg)
          exact ihl σ1 (Nat.lt_of_le_of_lt hle hlt)
      · rw [if_neg hm]
        exact ihl σ hlt

theorem removeFuel_no_fuelOut (tf : K → Bool) (key : K) :
    ∀ (fuel : Nat) (cascade : Bool) (σ : GState K R) (i : Nat),
      containCount σ key < fuel →
      removeFuel tf key fuel cascade σ i ≠ .fuelOut := by
  intro fuel
  induction fuel with
  | zero => intro c σ i h; exact absurd h (Nat.not_lt_zero _)
  | succ f ih =>
    intro c σ i h
    cases hσ : σ[i]? with
    | none => simp only [removeFuel, hσ]; intro hcon; exact nomatch hcon
    | some s =>
      simp only [removeFuel, hσ]
      by_cases hexc : c = true ∧ key ∈ s.exclusive
      · rw [if_pos hexc]; intro hcon; exact nomatch hcon
      · rw [if_neg hexc]
        by_cases hmem : key ∈ s.members
        · rw [if_pos hmem]
          set s1 : SetState K R :=
            { s with
              members := s.members.filter (fun x => decide (x ≠ key)) }
            with hs1
          have hnot1 : key ∉ s1.members := by
            rw [hs1]; exact not_mem_filter_ne _ _
          have hcp := countP_set_of (fun t : SetState K R =>
            decide (key ∈ t.members)) σ i s s1 hσ
          rw [if_pos (decide_eq_true hmem), if_neg (by
            simp only [decide_eq_true_eq]
            exact hnot1)] at hcp
          have hdec : containCount (σ.set i s1) key + 1 =
              containCount σ key := by
            unfold containCount
            omega
          have hfoldne := removeListWith_no_fuelOut tf key f ih s.links
            (σ.set i s1) (by omega)
          cases hfold : removeListWith key
              (fun σ' l => removeFuel tf key f true σ' l) s.links
              (σ.set i s1) with
          | fuelOut => exact absurd hfold hfoldne
          | keyError σe => intro hcon; exact nomatch hcon
          | ok σ2 =>
            dsimp only
            cases hσ2 : σ2[i]? with
            | none => intro hcon; exact nomatch hcon
            | some s2 => intro hcon; exact nomatch hcon
        · rw [if_neg hmem]
          intro hcon
          exact nomatch hcon

/-- A direct (non-cascaded) successful `remove` really deletes the key from
the target instance's members, and leaves its raw dict untouched. -/
theorem removeFuel_removes (tf : K → Bool) (key : K) (fuel : Nat)
    (σ : GState K R) (i : Nat) (s : SetState K R) (σ' : GState K R)
    (hσ : σ[i]? = some s) (hmem : key ∈ s.members)
    (h : removeFuel tf key (fuel + 1) false σ i = .ok σ') :
    ∃ s', σ'[i]? = some s' ∧ key ∉ s'.members ∧ s'.raw = s.raw := by
  have hlt : i < σ.length := (List.getElem?_eq_some_iff.mp hσ).1
  simp only [removeFuel, hσ] at h
  rw [if_neg (by simp), if_pos hmem] at h
  set s1 : SetState K R :=
    { s with members := s.members.filter (fun x => decide (x ≠ key)) }
    with hs1
  have hnot1 : key ∉ s1.members := by
    rw [hs1]; exact not_mem_filter_ne _ _
  cases hfold : removeListWith key
      (fun σ' l => removeFuel tf key fuel true σ' l) s.links
      (σ.set i s1) with
  | fuelOut => rw [hfold] at h; exact nomatch h
  | keyError σe => rw [hfold] at h; exact nomatch h
  | ok σ2 =>
    rw [hfold] at h
    dsimp only at h
    have hc2 := removeListWith_chars key _
      (fun σa l σb hb => removeFuel_chars tf key fuel true σa l σb hb)
      _ _ _ hfold
    have hset : (σ.set i s1)[i]? = some s1 := List.getElem?_set_self hlt
    have hlt2 : i < σ2.length := by
      have := hc2.1
      simp only [List.length_set] at this
      omega
    have hσ2 : σ2[i]? = some σ2[i] := List.getElem?_eq_getElem hlt2
    have hper := hc2.2 i s1 σ2[i] hset hσ2
    have hm2 : σ2[i].members = s1.members := hper.2.2.2.2.1 hnot1
    have hr2 : σ2[i].raw = s1.raw := hper.2.2.1
    rw [hσ2] at h
    dsimp only at h
    cases h
    refine ⟨check_target tf σ2[i], List.getElem?_set_self hlt2, ?_, ?_⟩
    · rw [check_target_members, hm2]
      exact hnot1
    · rw [check_target_raw, hr2, hs1]

/-! Section: raw-dict lookup lemmas -/

theorem find?_filter_ne (l : List (K × Option R)) (key k' : K)
    (hne : k' ≠ key) :
    (l.filter (fun p => decide (p.1 ≠ key))).find?
        (fun p => decide (p.1 = k')) =
      l.find? (fun p => decide (p.1 = k')) := by
  induction l with
  | nil => rfl
  | cons p ps ih =>
    by_cases hp : p.1 = key
    · rw [List.filter_cons_of_neg (by simp [hp])]
      rw [List.find?_cons_of_neg _ (by simp [hp]; exact fun h => hne h.symm)]
      exact ih
    · rw [List.filter_cons_of_pos (by simp [hp])]
      by_cases hk : p.1 = k'
      · rw [List.find?_cons_of_pos _ (by simp [hk]),
          List.find?_cons_of_pos _ (by simp [hk])]
      · rw [List.find?_cons_of_neg _ (by simp [hk]),
          List.find?_cons_of_neg _ (by simp [hk])]
        exact ih

/-- After `self.raw[key] = v`, indexing at `key` returns `v` and indexing at
any other key is unchanged. -/
theorem getItem_of_raw_insert (s s' : SetState K R) (key : K) (v : Option R)
    (h : s'.raw = rawInsert s.raw key v) :
    getItem s' key = some v ∧
    ∀ k', k' ≠ key → getItem s' k' = getItem s k' := by
  unfold getItem rawInsert at *
  rw [h]
  constructor
  · rw [List.find?_cons_of_pos _ (by simp)]
    rfl
  · intro k' hk
    rw [List.find?_cons_of_neg _ (by simp; exact fun h' => hk h'.symm)]
    rw [find?_filter_ne s.raw key k' hk]

/-! Section: the claims -/

/-- C3: if the filtered current membership already equals the filtered
desired set, `set_target(desired)` immediately sets the convergence signal
and clears the active target (so a zero-timeout wait on the event would
observe it set), with no subsequent mutation needed. -/
theorem C3_set_target_immediate (tf : K → Bool) (s : SetState K R)
    (v : List K) (h : filteredSetEq tf s.members v = true) :
    (set_target tf s (some v)).targetEvent = true ∧
    (set_target tf s (some v)).ct = none := by
  simp [set_target, check_target, h]

/-- Witness for C3 at a concrete input: members `{1, 2}`, desired `{2, 1}`. -/
theorem C3_witness :
    (set_target (fun _ => true) (initLS [1, 2] : SetState Nat Nat)
      (some [2, 1])).targetEvent = true ∧
    (set_target (fun _ => true) (initLS [1, 2] : SetState Nat Nat)
      (some [2, 1])).ct = none :=
  C3_set_target_immediate (fun _ => true) (initLS [1, 2]) [2, 1] (by decide)

/-- C4: reaching a target is one-shot.  When `check_target` finds the
filtered members equal to the filtered target it clears the target and sets
the event; when they differ it changes nothing; and once the target is
cleared (`_ct = None`), any further `add` mutation leaves the event set and
the target inactive (no re-triggering until a new `set_target`). -/
theorem C4_check_target_one_shot (tf : K → Bool) (s : SetState K R)
    (t : List K) (hct : s.ct = some t) :
    (filteredSetEq tf s.members t = true →
      check_target tf s = { s with ct := none, targetEvent := true }) ∧
    (filteredSetEq tf s.members t = false → check_target tf s = s) ∧
    (∀ (key : K) (rawv : Option R) (fuel : Nat) (σ : GState K R) (i : Nat)
      (s0 : SetState K R) (σ' : GState K R), σ[i]? = some s0 →
      s0.ct = none → addFuel tf key rawv fuel false σ i = some σ' →
      ∃ s1, σ'[i]? = some s1 ∧ s1.ct = none ∧
        s1.targetEvent = s0.targetEvent) := by
  refine ⟨?_, ?_, ?_⟩
  · intro h
    simp [check_target, hct, h]
  · intro h
    simp [check_target, hct, h]
  · intro key rawv fuel σ i s0 σ' hσ hct0 hadd
    have hch := addFuel_chars tf key rawv fuel false σ i σ' hadd
    have hlt : i < σ.length := (List.getElem?_eq_some_iff.mp hσ).1
    have hlt' : i < σ'.length := by
      have := hch.1
      omega
    have hσ' : σ'[i]? = some σ'[i] := List.getElem?_eq_getElem hlt'
    obtain ⟨hc, he⟩ := (hch.2 i s0 σ'[i] hσ hσ').2.2.2.2 hct0
    exact ⟨σ'[i], hσ', hc, he⟩

/-- Witness for C4 at a concrete input: an active target `{1}` on members
`{1}`. -/
theorem C4_witness :
    (filteredSetEq (fun _ => true)
        (⟨[1], [], [], [], some [1], false⟩ : SetState Nat Nat).members [1]
        = true →
      check_target (fun _ => true)
          (⟨[1], [], [], [], some [1], false⟩ : SetState Nat Nat) =
        { (⟨[1], [], [], [], some [1], false⟩ : SetState Nat Nat) with
            ct := none, targetEvent := true }) ∧
    (filteredSetEq (fun _ => true)
        (⟨[1], [], [], [], some [1], false⟩ : SetState Nat Nat).members [1]
        = false →
      check_target (fun _ => true)
          (⟨[1], [], [], [], some [1], false⟩ : SetState Nat Nat) =
        ⟨[1], [], [], [], some [1], false⟩) ∧
    (∀ (key : Nat) (rawv : Option Nat) (fuel : Nat) (σ : GState Nat Nat)
      (i : Nat) (s0 : SetState Nat Nat) (σ' : GState Nat Nat),
      σ[i]? = some s0 → s0.ct = none →
      addFuel (fun _ => true) key rawv fuel false σ i = some σ' →
      ∃ s1, σ'[i]? = some s1 ∧ s1.ct = none ∧
        s1.targetEvent = s0.targetEvent) :=
  C4_check_target_one_shot (fun _ => true) ⟨[1], [], [], [], some [1], false⟩
    [1] rfl

/-- C5: a duplicate `add` is absorbed: when the key is already a member, the
call only re-runs `check_target` on the instance — members are unchanged,
the stored payload is not overwritten, and no linked instance is touched. -/
theorem C5_duplicate_add_absorbed (tf : K → Bool) (key : K) (rawv : Option R)
    (fuel : Nat) (σ : GState K R) (i : Nat) (s : SetState K R)
    (hσ : σ[i]? = some s) (hmem : key ∈ s.members) :
    addFuel tf key rawv (fuel + 1) false σ i =
      some (σ.set i (check_target tf s)) ∧
    (check_target tf s).members = s.members ∧
    (check_target tf s).raw = s.raw ∧
    ∀ j, j ≠ i → (σ.set i (check_target tf s))[j]? = σ[j]? := by
  refine ⟨?_, check_target_members tf s, check_target_raw tf s, ?_⟩
  · simp only [addFuel, hσ]
    rw [if_neg (by simp), if_pos hmem]
  · intro j hj
    exact List.getElem?_set_ne (fun h => hj h.symm)

/-- Witness for C5 at a concrete input: re-adding member `3` (with a
different payload) to an instance that links to instance `1`. -/
theorem C5_witness :
    addFuel (fun _ => true) 3 (some 4) 1 false
      [(⟨[3], [(3, some 9)], [1], [], none, false⟩ : SetState Nat Nat),
       ⟨[], [], [], [], none, false⟩] 0 =
      some ([(⟨[3], [(3, some 9)], [1], [], none, false⟩ : SetState Nat Nat),
        ⟨[], [], [], [], none, false⟩].set 0
        (check_target (fun _ => true)
          ⟨[3], [(3, some 9)], [1], [], none, false⟩)) ∧
    (check_target (fun _ => true)
      (⟨[3], [(3, some 9)], [1], [], none, false⟩ : SetState Nat Nat)).members
      = [3] ∧
    (check_target (fun _ => true)
      (⟨[3], [(3, some 9)], [1], [], none, false⟩ : SetState Nat Nat)).raw
      = [(3, some 9)] ∧
    ∀ j, j ≠ 0 →
      ([(⟨[3], [(3, some 9)], [1], [], none, false⟩ : SetState Nat Nat),
        ⟨[], [], [], [], none, false⟩].set 0
        (check_target (fun _ => true)
          ⟨[3], [(3, some 9)], [1], [], none, false⟩))[j]? =
      [(⟨[3], [(3, some 9)], [1], [], none, false⟩ : SetState Nat Nat),
        ⟨[], [], [], [], none, false⟩][j]? :=
  C5_duplicate_add_absorbed (fun _ => true) 3 (some 4) 0 _ 0 _ rfl
    (by decide)

/-- C6: a direct `remove` of an absent key fails with `KeyError` leaving the
whole state exactly as it was, while during a cascaded removal a linked
instance that does not contain the key is silently skipped (left untouched,
no error). -/
theorem C6_remove_error_vs_cascade_skip (tf : K → Bool) (key : K)
    (fuel : Nat) (σ : GState K R) (i : Nat) (s : SetState K R)
    (hσ : σ[i]? = some s) :
    (key ∉ s.members → removeFuel tf key (fuel + 1) false σ i = .keyError σ) ∧
    (∀ (j : Nat) (t : SetState K R), s.links = [j] → j ≠ i →
      σ[j]? = some t → key ∈ s.members → key ∉ t.members →
      ∃ σ', removeFuel tf key (fuel + 1) false σ i = .ok σ' ∧
        σ'[j]? = some t) := by
  constructor
  · intro hmem
    simp only [removeFuel, hσ]
    rw [if_neg (by simp), if_neg hmem]
  · intro j t hlinks hji hj hmem hnt
    have hlt : i < σ.length := (List.getElem?_eq_some_iff.mp hσ).1
    simp only [removeFuel, hσ]
    rw [if_neg (by simp), if_pos hmem]
    set s1 : SetState K R :=
      { s with members := s.members.filter (fun x => decide (x ≠ key)) }
      with hs1
    rw [hlinks]
    have hj1 : (σ.set i s1)[j]? = σ[j]? :=
      List.getElem?_set_ne (fun h => hji h.symm)
    have hfold : removeListWith key
        (fun σ' l => removeFuel tf key fuel true σ' l) [j] (σ.set i s1) =
        .ok (σ.set i s1) := by
      simp only [removeListWith, hj1, hj]
      rw [if_neg hnt]
    rw [hfold]
    dsimp only
    have hset1 : (σ.set i s1)[i]? = some s1 := List.getElem?_set_self hlt
    rw [hset1]
    dsimp only
    refine ⟨_, rfl, ?_⟩
    rw [List.getElem?_set_ne (fun h => hji h.symm), hj1, hj]

/-- Witness for C6 at a concrete input: instance `0` has members `{1}` and a
link to instance `1`, which lacks the key. -/
theorem C6_witness :
    ((1 : Nat) ∉
        (⟨[1], [], [1], [], none, false⟩ : SetState Nat Nat).members →
      removeFuel (fun _ => true) 1 1 false
        [(⟨[1], [], [1], [], none, false⟩ : SetState Nat Nat),
         ⟨[2], [], [], [], none, false⟩] 0 =
        .keyError [⟨[1], [], [1], [], none, false⟩,
          ⟨[2], [], [], [], none, false⟩]) ∧
    (∀ (j : Nat) (t : SetState Nat Nat),
      (⟨[1], [], [1], [], none, false⟩ : SetState Nat Nat).links = [j] →
      j ≠ 0 →
      [(⟨[1], [], [1], [], none, false⟩ : SetState Nat Nat),
        ⟨[2], [], [], [], none, false⟩][j]? = some t →
      (1 : Nat) ∈
        (⟨[1], [], [1], [], none, false⟩ : SetState Nat Nat).members →
      (1 : Nat) ∉ t.members →
      ∃ σ', removeFuel (fun _ => true) 1 1 false
          [(⟨[1], [], [1], [], none, false⟩ : SetState Nat Nat),
           ⟨[2], [], [], [], none, false⟩] 0 = .ok σ' ∧
        σ'[j]? = some t) :=
  C6_remove_error_vs_cascade_skip (fun _ => true) 1 0 _ 0 _ rfl

/-- C7: after `unlink(k)` (the key is in `exclusive`), a cascaded `add` or
`remove` of `k` arriving at this instance is a complete no-op on the whole
state, while a direct (non-cascaded) `add` still inserts the key and a
direct `remove` still deletes it. -/
theorem C7_exclusive_only_cascade (tf : K → Bool) (key : K)
    (rawv : Option R) (fuel : Nat) (σ : GState K R) (i : Nat)
    (s : SetState K R) (hσ : σ[i]? = some s) (hexc : key ∈ s.exclusive) :
    addFuel tf key rawv (fuel + 1) true σ i = some σ ∧
    removeFuel tf key (fuel + 1) true σ i = .ok σ ∧
    (∀ σ', key ∉ s.members →
      addFuel tf key rawv (fuel + 1) false σ i = some σ' →
      ∃ s', σ'[i]? = some s' ∧ key ∈ s'.members) ∧
    (∀ σ', key ∈ s.members →
      removeFuel tf key (fuel + 1) false σ i = .ok σ' →
      ∃ s', σ'[i]? = some s' ∧ key ∉ s'.members) := by
  refine ⟨?_, ?_, ?_, ?_⟩
  · simp only [addFuel, hσ]
    rw [if_pos ⟨by trivial, hexc⟩]
  · simp only [removeFuel, hσ]
    rw [if_pos ⟨by trivial, hexc⟩]
  · intro σ' hmem hadd
    obtain ⟨s', h1, h2, _⟩ :=
      addFuel_adds tf key rawv fuel σ i s σ' hσ hmem hadd
    refine ⟨s', h1, ?_⟩
    rw [h2]
    exact List.mem_cons_self _ _
  · intro σ' hmem hrem
    obtain ⟨s', h1, h2, _⟩ :=
      removeFuel_removes tf key fuel σ i s σ' hσ hmem hrem
    exact ⟨s', h1, h2⟩

/-- Witness for C7 at a concrete input: key `5` unlinked (excluded) on an
instance that contains it. -/
theorem C7_witness :
    addFuel (fun _ => true) 5 (some 8) 1 true
      [(⟨[5], [], [], [5], none, false⟩ : SetState Nat Nat)] 0 =
      some [⟨[5], [], [], [5], none, false⟩] ∧
    removeFuel (fun _ => true) 5 1 true
      [(⟨[5], [], [], [5], none, false⟩ : SetState Nat Nat)] 0 =
      .ok [⟨[5], [], [], [5], none, false⟩] ∧
    (∀ σ', (5 : Nat) ∉
        (⟨[5], [], [], [5], none, false⟩ : SetState Nat Nat).members →
      addFuel (fun _ => true) 5 (some 8) 1 false
        [(⟨[5], [], [], [5], none, false⟩ : SetState Nat Nat)] 0 = some σ' →
      ∃ s', σ'[0]? = some s' ∧ (5 : Nat) ∈ s'.members) ∧
    (∀ σ', (5 : Nat) ∈
        (⟨[5], [], [], [5], none, false⟩ : SetState Nat Nat).members →
      removeFuel (fun _ => true) 5 1 false
        [(⟨[5], [], [], [5], none, false⟩ : SetState Nat Nat)] 0 = .ok σ' →
      ∃ s', σ'[0]? = some s' ∧ (5 : Nat) ∉ s'.members) :=
  C7_exclusive_only_cascade (fun _ => true) 5 (some 8) 0 _ 0 _ rfl
    (by decide)

/-- C9: on every link graph (cycles included), a single top-level `add` or
`remove` terminates — fuel one more than the number of instances lacking
(resp. containing) the key suffices — and mutates each instance's members at
most once: afterwards every instance's members are unchanged or have exactly
one insertion (resp. one deletion) of the key.  The membership test on entry
is what stops re-application; every re-entrant call is cascaded by
construction of the cascade loop. -/
theorem C9_cascade_terminates_once (tf : K → Bool) (key : K)
    (rawv : Option R) (σ : GState K R) (i : Nat) :
    (∃ σ', addFuel tf key rawv (lackCount σ key + 1) false σ i = some σ' ∧
      ∀ (j : Nat) (s s' : SetState K R), σ[j]? = some s → σ'[j]? = some s' →
        s'.members = s.members ∨ s'.members = key :: s.members) ∧
    (removeFuel tf key (containCount σ key + 1) false σ i ≠ .fuelOut ∧
      ∀ σ', removeFuel tf key (containCount σ key + 1) false σ i = .ok σ' →
        ∀ (j : Nat) (s s' : SetState K R), σ[j]? = some s →
          σ'[j]? = some s' →
          s'.members = s.members ∨
          s'.members = s.members.filter (fun x => decide (x ≠ key))) := by
  constructor
  · obtain ⟨σ', hs⟩ := addFuel_isSome tf key rawv (lackCount σ key + 1)
      false σ i (Nat.lt_succ_self _)
    refine ⟨σ', hs, ?_⟩
    intro j s s' hj hj'
    have hper := (addFuel_chars tf key rawv _ false σ i σ' hs).2 j s s' hj hj'
    by_cases hm : key ∈ s.members
    · exact Or.inl (hper.2.2.1 hm).1
    · rcases hper.2.2.2.1 hm with ⟨h1, _⟩ | ⟨h1, _⟩
      · exact Or.inl h1
      · exact Or.inr h1
  · refine ⟨removeFuel_no_fuelOut tf key _ false σ i (Nat.lt_succ_self _), ?_⟩
    intro σ' hok j s s' hj hj'
    exact ((removeFuel_chars tf key _ false σ i σ' hok).2 j s s' hj
      hj').2.2.2.1

/-- Witness for C9 at a concrete input: a two-instance link *cycle*
(`0 → 1 → 0`). -/
theorem C9_witness :
    (∃ σ', addFuel (fun _ => true) 5 (some 7)
        (lackCount [(⟨[], [], [1], [], none, false⟩ : SetState Nat Nat),
          ⟨[], [], [0], [], none, false⟩] 5 + 1) false
        [(⟨[], [], [1], [], none, false⟩ : SetState Nat Nat),
          ⟨[], [], [0], [], none, false⟩] 0 = some σ' ∧
      ∀ (j : Nat) (s s' : SetState Nat Nat),
        [(⟨[], [], [1], [], none, false⟩ : SetState Nat Nat),
          ⟨[], [], [0], [], none, false⟩][j]? = some s →
        σ'[j]? = some s' →
        s'.members = s.members ∨ s'.members = 5 :: s.members) ∧
    (removeFuel (fun _ => true) 5
        (containCount [(⟨[], [], [1], [], none, false⟩ : SetState Nat Nat),
          ⟨[], [], [0], [], none, false⟩] 5 + 1) false
        [(⟨[], [], [1], [], none, false⟩ : SetState Nat Nat),
          ⟨[], [], [0], [], none, false⟩] 0 ≠ .fuelOut ∧
      ∀ σ', removeFuel (fun _ => true) 5
          (containCount [(⟨[], [], [1], [], none, false⟩ : SetState Nat Nat),
            ⟨[], [], [0], [], none, false⟩] 5 + 1) false
          [(⟨[], [], [1], [], none, false⟩ : SetState Nat Nat),
            ⟨[], [], [0], [], none, false⟩] 0 = .ok σ' →
        ∀ (j : Nat) (s s' : SetState Nat Nat),
          [(⟨[], [], [1], [], none, false⟩ : SetState Nat Nat),
            ⟨[], [], [0], [], none, false⟩][j]? = some s →
          σ'[j]? = some s' →
          s'.members = s.members ∨
          s'.members = s.members.filter (fun x => decide (x ≠ 5))) :=
  C9_cascade_terminates_once (fun _ => true) 5 (some 7)
    [⟨[], [], [1], [], none, false⟩, ⟨[], [], [0], [], none, false⟩] 0

/-- C10: payload lookup is partial.  A constructor-seeded instance has no
payload entry for any key (indexing raises `KeyError` even for seeded
members); a direct `add key rawv` creates the entry, after which indexing at
`key` returns exactly the stored payload (`None` included, as the inner
`none`) while indexing at any other key is unaffected. -/
theorem C10_getitem_partial (ms : List K) (k : K) (tf : K → Bool)
    (key : K) (rawv : Option R) (fuel : Nat) (σ : GState K R) (i : Nat)
    (s : SetState K R) (σ' : GState K R)
    (hσ : σ[i]? = some s) (hmem : key ∉ s.members)
    (hadd : addFuel tf key rawv (fuel + 1) false σ i = some σ') :
    getItem (initLS ms : SetState K R) k = none ∧
    ∃ s', σ'[i]? = some s' ∧ getItem s' key = some rawv ∧
      ∀ k', k' ≠ key → getItem s' k' = getItem s k' := by
  constructor
  · rfl
  · obtain ⟨s', h1, _, h3, _⟩ :=
      addFuel_adds tf key rawv fuel σ i s σ' hσ hmem hadd
    obtain ⟨h4, h5⟩ := getItem_of_raw_insert s s' key rawv h3
    exact ⟨s', h1, h4, h5⟩

/-- Witness for C10 at a concrete input: an instance seeded with member `9`
(no payload entry), then `add 4` with payload `None`. -/
theorem C10_witness :
    getItem (initLS [9] : SetState Nat Nat) 9 = none ∧
    ∃ s', [(⟨[4, 9], [(4, none)], [], [], none, false⟩ :
        SetState Nat Nat)][0]? = some s' ∧
      getItem s' 4 = some none ∧
      ∀ k', k' ≠ 4 →
        getItem s' k' = getItem (initLS [9] : SetState Nat Nat) k' :=
  C10_getitem_partial [9] 9 (fun _ => true) 4 none 0
    [(initLS [9] : SetState Nat Nat)] 0 (initLS [9])
    [⟨[4, 9], [(4, none)], [], [], none, false⟩] rfl (by decide) (by decide)

/-- C1 counterexample: after `add(0, payload=7)` and a successful
`remove(0)` on a fresh single instance, the key `0` is no longer a member
but *still has its payload entry* (`self.raw` is never cleaned by `remove`),
so "every key with a stored payload is a member" is violated. -/
theorem C1_counterexample :
    addFuel (fun _ => true) 0 (some 7) 1 false
      [(initLS [] : SetState Nat Nat)] 0 =
      some [⟨[0], [(0, some 7)], [], [], none, false⟩] ∧
    removeFuel (fun _ => true) 0 1 false
      [(⟨[0], [(0, some 7)], [], [], none, false⟩ : SetState Nat Nat)] 0 =
      .ok [⟨[], [(0, some 7)], [], [], none, false⟩] ∧
    getItem (⟨[], [(0, some 7)], [], [], none, false⟩ : SetState Nat Nat) 0 =
      some (some 7) ∧
    (0 : Nat) ∉
      (⟨[], [(0, some 7)], [], [], none, false⟩ : SetState Nat Nat).members :=
  by decide

/-- C1 (amended): `add` does preserve "payload keys are members", but
`remove` deletes only the membership and leaves every instance's raw dict
untouched, so after `add(k, payload)` followed by a successful `remove(k)`
the key retains its payload entry while no longer being a member. -/
theorem C1_remove_keeps_payload (tf : K → Bool) (key : K) (fuel : Nat)
    (cascade : Bool) (σ : GState K R) (i : Nat) (σ' : GState K R)
    (hok : removeFuel tf key fuel cascade σ i = .ok σ') :
    (∀ (j : Nat) (s s' : SetState K R), σ[j]? = some s → σ'[j]? = some s' →
      s'.raw = s.raw) ∧
    (∀ s, σ[i]? = some s → cascade = false → key ∈ s.members →
      ∃ s', σ'[i]? = some s' ∧ key ∉ s'.members ∧ s'.raw = s.raw) := by
  constructor
  · intro j s s' hj hj'
    exact ((removeFuel_chars tf key fuel cascade σ i σ' hok).2 j s s'
      hj hj').2.2.1
  · intro s hσ hcasc hmem
    subst hcasc
    cases fuel with
    | zero =>
      simp only [removeFuel] at hok
      exact nomatch hok
    | succ f => exact removeFuel_removes tf key f σ i s σ' hσ hmem hok

/-- Witness for C1 (amended) at a concrete input: removing key `0` from the
instance produced by the counterexample's `add`. -/
theorem C1_witness :
    (∀ (j : Nat) (s s' : SetState Nat Nat),
      [(⟨[0], [(0, some 7)], [], [], none, false⟩ : SetState Nat Nat)][j]? =
        some s →
      [(⟨[], [(0, some 7)], [], [], none, false⟩ : SetState Nat Nat)][j]? =
        some s' →
      s'.raw = s.raw) ∧
    (∀ s, [(⟨[0], [(0, some 7)], [], [], none, false⟩ :
        SetState Nat Nat)][0]? = some s →
      false = false → (0 : Nat) ∈ s.members →
      ∃ s', [(⟨[], [(0, some 7)], [], [], none, false⟩ :
          SetState Nat Nat)][0]? = some s' ∧
        (0 : Nat) ∉ s'.members ∧ s'.raw = s.raw) :=
  C1_remove_keeps_payload (fun _ => true) 0 1 false
    [⟨[0], [(0, some 7)], [], [], none, false⟩] 0
    [⟨[], [(0, some 7)], [], [], none, false⟩] (by decide)

/-- C2 counterexample: a decoded message with family `0` (neither `AF_INET`
nor `AF_INET6`).  Message-based `add` is *not* a silent no-op: it stores the
key `None` together with the payload record (members change).  Message-based
`remove` is not silent either: it raises `KeyError` on the fresh instance. -/
theorem C2_counterexample :
    IPaddrSet.add_msg 1 ⟨0, 24, some "10.0.0.1", some "10.0.0.1", none, none⟩
      [(initLS [] : SetState IPKey IPRaw)] 0 =
      some [⟨[none],
        [(none, some ⟨some "10.0.0.1", none, some "10.0.0.1", none, some 24⟩)],
        [], [], none, false⟩] ∧
    IPaddrSet.remove_msg 1
      ⟨0, 24, some "10.0.0.1", some "10.0.0.1", none, none⟩
      [(initLS [] : SetState IPKey IPRaw)] 0 =
      .keyError [initLS []] := by decide

/-- C2 (amended): for a message of an unsupported family the extracted key
is Python `None`; message-based `add` then inserts the key `None` with the
payload record (members change, a payload is stored), and message-based
`remove` delegates removal of `None`, raising `KeyError` whenever `None` is
not a member — there is no silent no-op branch. -/
theorem C2_unsupported_family_stores_none (addr : AddrMsg)
    (h2 : addr.family ≠ AF_INET) (h10 : addr.family ≠ AF_INET6)
    (fuel : Nat) (σ : GState IPKey IPRaw) (i : Nat)
    (s : SetState IPKey IPRaw)
    (hσ : σ[i]? = some s) (hnm : none ∉ s.members) :
    get_addr_nla addr = none ∧
    (∀ σ', IPaddrSet.add_msg (fuel + 1) addr σ i = some σ' →
      ∃ s', σ'[i]? = some s' ∧ s'.members = none :: s.members ∧
        getItem s' none = some (some (msg_raw addr))) ∧
    IPaddrSet.remove_msg (fuel + 1) addr σ i = .keyError σ := by
  have hk : get_addr_nla addr = none := by
    unfold get_addr_nla
    rw [if_neg h2, if_neg h10]
  refine ⟨hk, ?_, ?_⟩
  · intro σ' hadd
    unfold IPaddrSet.add_msg at hadd
    rw [hk] at hadd
    obtain ⟨s', ha1, ha2, ha3, _⟩ := addFuel_adds IPaddrSet.target_filter
      none (some (msg_raw addr)) fuel σ i s σ' hσ hnm hadd
    refine ⟨s', ha1, ha2, ?_⟩
    exact (getItem_of_raw_insert s s' none (some (msg_raw addr)) ha3).1
  · unfold IPaddrSet.remove_msg
    rw [hk]
    simp only [removeFuel, hσ]
    rw [if_neg (by simp), if_neg hnm]

/-- Witness for C2 (amended) at a concrete input: family `0` message on a
fresh instance. -/
theorem C2_witness :
    get_addr_nla ⟨0, 24, some "10.0.0.1", some "10.0.0.1", none, none⟩ =
      none ∧
    (∀ σ', IPaddrSet.add_msg 1
        ⟨0, 24, some "10.0.0.1", some "10.0.0.1", none, none⟩
        [(initLS [] : SetState IPKey IPRaw)] 0 = some σ' →
      ∃ s', σ'[0]? = some s' ∧
        s'.members = none :: (initLS [] : SetState IPKey IPRaw).members ∧
        getItem s' none = some (some (msg_raw
          ⟨0, 24, some "10.0.0.1", some "10.0.0.1", none, none⟩))) ∧
    IPaddrSet.remove_msg 1
      ⟨0, 24, some "10.0.0.1", some "10.0.0.1", none, none⟩
      [(initLS [] : SetState IPKey IPRaw)] 0 =
      .keyError [initLS []] :=
  C2_unsupported_family_stores_none
    ⟨0, 24, some "10.0.0.1", some "10.0.0.1", none, none⟩
    (by decide) (by decide) 0 [initLS []] 0 (initLS []) rfl (by decide)

/-- C8: the `IPaddrSet` equivalence filter excludes exactly the members
whose key is an `fe80`-prefixed (link-local) address with prefix length 64.
Concretely, with members `{(fe80::1, 64), (10.0.0.5, 24)}` and target
`{(10.0.0.5, 24)}`, `set_target` converges (event set, target cleared)
under the address filter but not under the base `LinkedSet` filter. -/
theorem C8_link_local_filtered :
    (set_target IPaddrSet.target_filter
      (⟨[some (some "fe80::1", 64), some (some "10.0.0.5", 24)], [], [], [],
        none, false⟩ : SetState IPKey IPRaw)
      (some [some (some "10.0.0.5", 24)])).targetEvent = true ∧
    (set_target IPaddrSet.target_filter
      (⟨[some (some "fe80::1", 64), some (some "10.0.0.5", 24)], [], [], [],
        none, false⟩ : SetState IPKey IPRaw)
      (some [some (some "10.0.0.5", 24)])).ct = none ∧
    (set_target LinkedSet.target_filter
      (⟨[some (some "fe80::1", 64), some (some "10.0.0.5", 24)], [], [], [],
        none, false⟩ : SetState IPKey IPRaw)
      (some [some (some "10.0.0.5", 24)])).targetEvent = false ∧
    (set_target LinkedSet.target_filter
      (⟨[some (some "fe80::1", 64), some (some "10.0.0.5", 24)], [], [], [],
        none, false⟩ : SetState IPKey IPRaw)
      (some [some (some "10.0.0.5", 24)])).ct =
      some [some (some "10.0.0.5", 24)] ∧
    IPaddrSet.target_filter (some (some "fe80::1", 64)) = false ∧
    IPaddrSet.target_filter (some (some "fe80::1", 24)) = true ∧
    IPaddrSet.target_filter (some (some "fe81::1", 64)) = true ∧
    IPaddrSet.target_filter (some (some "10.0.0.5", 24)) = true := by
  decide

end LinkedSets
